import Mathlib

/-!
# Verification of the cvscan parallel consensus review engine

A shallow embedding, in Lean, of the core of the `cvscan` repository:

* the generic fan-out executor `ParMap` / `ParMapRange` (`utils.go`);
* the consensus review engine `ReviewCandidates` / `reviewSingleCandidate` /
  `reviewCandidateOnce` with its response validator
  (`buildReviewCandidateReviewMapFunc`);
* the per-question result type `CandidateQuestionResult` with its
  `IsTrue` / `Inconsistency` / `Probability` projections;
* the report construction and sorting of `viewRunner.runView` (`main.go`)
  together with the `CandidateReport` data (`CandidateReport`, weights from
  `ConfigScoreChecklistItem`).

Modelling conventions:

* Go `map[string]V` values are represented as association lists
  `List (String × V)`; a Go map never holds duplicate keys, so theorems that
  depend on it take a `Nodup` hypothesis on the key list.  `alookup` is the
  map read, `mapUpsert` the read-modify-write `m[k] = f(m[k])` (reads of
  missing keys yield the zero value, as in Go).
* Go `float64` is modelled as `ℚ`.  All arithmetic performed by the engine
  (adding 0/1 deltas, one final division, `min`, doubling, comparison with
  0.5) is exact on the rationals at the inputs the claims speak about.
* `errors.Join(errs...)` is represented by the list of the joined
  non-nil errors, in slot order (`slices.DeleteFunc` keeps order).
* goroutine scheduling is modelled explicitly for the executor:
  `ParMapSched` runs the per-index units in an arbitrary completion `order`,
  each unit writing only its own slot; `ParMap` is the deterministic
  result.  A unit's outcome is a pure function of its index, as in the
  source, where `fn` is called once per index.
* The remote LLM transport is an oracle `ReviewEnv`: for every
  (candidate index, repeat index) it yields the sequence of decoded
  responses of the successive retry attempts (`none` = transport or JSON
  decode failure at that attempt).
-/

namespace Cvscan

/-- Association-list read, the model of a Go map read `m[k]` (returns
`none` when the key is absent). -/
def alookup {β : Type} (k : String) : List (String × β) → Option β
  | [] => none
  | (k₁, v) :: rest => if k₁ = k then some v else alookup k rest

/-- Association-list read-modify-write, the model of `m[k] = f(m[k])` on a
Go map whose value type has zero value `0`. -/
def mapUpsert (k : String) (f : ℚ → ℚ) : List (String × ℚ) → List (String × ℚ)
  | [] => [(k, f 0)]
  | (k₁, v) :: rest =>
    if k₁ = k then (k₁, f v) :: rest else (k₁, v) :: mapUpsert k f rest

/-- Lexicographic strict comparison of character lists: the model of Go's
`<` on strings (byte-wise comparison of UTF-8 strings coincides with
code-point-wise lexicographic comparison). -/
def charListLT : List Char → List Char → Bool
  | _, [] => false
  | [], _ :: _ => true
  | a :: as, b :: bs => if a < b then true else if b < a then false else charListLT as bs

/-- Go's `a < b` on strings. -/
def strLT (a b : String) : Bool := charListLT a.data b.data

/-- The successful value of an `Except`, when there is one. -/
def okPart {E U : Type} : Except E U → Option U
  | .ok u => some u
  | .error _ => none

/-- The error of an `Except`, when there is one. -/
def errPart {E U : Type} : Except E U → Option E
  | .ok _ => none
  | .error e => some e

/-- `ParMap` from `utils.go`: run every input through `fn` (in parallel in
the source), collect per-index results and errors in slot order, drop the
nil error slots, and return either the joined error list or the full result
list.  Each unit's outcome is deterministic in its input, so the value is
scheduling-independent (made precise by `ParMapSched` below). -/
def ParMap {T U E : Type} (inputs : List T) (fn : T → Except E U) : Except (List E) (List U) :=
  let outs := inputs.map fn
  let errs := outs.filterMap errPart
  if errs.isEmpty then .ok (outs.filterMap okPart) else .error errs

/-- `ParMapRange` from `utils.go`: `ParMap` over the inputs `[0, …, upTo-1]`. -/
def ParMapRange {U E : Type} (upTo : Nat) (fn : Nat → Except E U) : Except (List E) (List U) :=
  ParMap (List.range upTo) fn

/-- One goroutine of `ParMap` completing: unit `i` computes `f i` and
writes its own `results[i]` or `errs[i]` slot (slots modelled as functions
`Nat → Option _`). -/
def schedStep {U E : Type} (f : Nat → Except E U)
    (acc : (Nat → Option U) × (Nat → Option E)) (i : Nat) :
    (Nat → Option U) × (Nat → Option E) :=
  match f i with
  | .ok u => (fun j => if j = i then some u else acc.1 j, acc.2)
  | .error e => (acc.1, fun j => if j = i then some e else acc.2 j)

/-- `ParMap` over the range `[0, n)` under an explicit completion `order` of
the `n` goroutines: the units finish in the order listed, then the
collection phase of the source runs (delete nil errors, join or return). -/
def ParMapSched {U E : Type} (n : Nat) (f : Nat → Except E U) (order : List Nat) :
    Except (List E) (List U) :=
  let acc := order.foldl (schedStep f) (fun _ => none, fun _ => none)
  let errs := (List.range n).filterMap acc.2
  if errs.isEmpty then .ok ((List.range n).filterMap acc.1) else .error errs

/-- A Go `error`: either a message or a join of several errors
(`errors.Join`). -/
inductive GoErr where
  | msg : String → GoErr
  | join : List GoErr → GoErr

/-- `CandidateQuestionResult` from `part_000`: the result of a single
checklist question for a candidate (the `float64` field is modelled
as `ℚ`). -/
structure CandidateQuestionResult where
  probability : ℚ
deriving DecidableEq

/-- `IsTrue`: the candidate is likely to satisfy the checklist item
(source: `c.probability > 0.5`). -/
def CandidateQuestionResult.IsTrue (c : CandidateQuestionResult) : Bool :=
  c.probability > 1/2

/-- `Inconsistency`: how inconsistent the model's answers were
(source: `min(c.probability, 1-c.probability) * 2`). -/
def CandidateQuestionResult.Inconsistency (c : CandidateQuestionResult) : ℚ :=
  min c.probability (1 - c.probability) * 2

/-- `Probability` accessor. -/
def CandidateQuestionResult.Probability (c : CandidateQuestionResult) : ℚ :=
  c.probability

/-- `checklistItemResponse` from `part_000`: one decoded checklist answer. -/
structure ChecklistItemResponse where
  reasoning : String
  answer : Bool
deriving DecidableEq

/-- `candidateReviewResponse`: a decoded JSON response, a map from
checklist key to item response. -/
abbrev CandidateReviewResponse := List (String × ChecklistItemResponse)

/-- The validator of `buildReviewCandidateReviewMapFunc`: the checklist
keys missing from a response (a response is rejected iff this is
non-empty).  Extra keys of the response are never examined. -/
def missingKeys (checklist : List (String × String)) (response : CandidateReviewResponse) :
    List String :=
  (checklist.map Prod.fst).filter (fun k => (alookup k response).isNone)

/-- The retry loop of the typed LLM call built by
`buildReviewCandidateReviewMapFunc`.  Modelled from the spec: the external
`jpf.NewFeedbackMapFunc(enc, dec, fed, model, jpf.UserRole, 10)` makes up
to 10 attempts; a transport/decode failure (`none`) and a response that
fails the validator are both retried (with the raw response as feedback);
the first validated response is returned. -/
def feedbackMapCall (checklist : List (String × String)) :
    Nat → List (Option CandidateReviewResponse) → Except GoErr CandidateReviewResponse
  | 0, _ => .error (.msg "exceeded maximum attempts")
  | _ + 1, [] => .error (.msg "model call failed")
  | fuel + 1, none :: rest => feedbackMapCall checklist fuel rest
  | fuel + 1, some resp :: rest =>
    if missingKeys checklist resp = [] then .ok resp
    else feedbackMapCall checklist fuel rest

/-- The number of model invocations `feedbackMapCall` performs. -/
def feedbackMapUsed (checklist : List (String × String)) :
    Nat → List (Option CandidateReviewResponse) → Nat
  | 0, _ => 0
  | _ + 1, [] => 0
  | fuel + 1, none :: rest => feedbackMapUsed checklist fuel rest + 1
  | fuel + 1, some resp :: rest =>
    if missingKeys checklist resp = [] then 1 else feedbackMapUsed checklist fuel rest + 1

/-- The remote LLM, as an oracle: for every (candidate index, repeat
index), the decoded responses of the successive retry attempts (`none` =
transport or decode failure of that attempt). -/
structure ReviewEnv where
  attempts : Nat → Nat → List (Option CandidateReviewResponse)

/-- `reviewCandidateOnce` from `part_000`: one full-checklist judgment of
one candidate — call the typed LLM map-function and project each item
response to its boolean `answer`. -/
def reviewCandidateOnce (env : ReviewEnv) (checklist : List (String × String))
    (candidateIndex repeatNumber : Nat) : Except GoErr (List (String × Bool)) :=
  match feedbackMapCall checklist 10 (env.attempts candidateIndex repeatNumber) with
  | .error e => .error e
  | .ok result => .ok (result.map (fun kv => (kv.1, kv.2.answer)))

/-- The `delta` of the aggregation loop in `reviewSingleCandidate`. -/
def boolDelta (v : Bool) : ℚ := if v then 1 else 0

/-- One iteration of the outer aggregation loop of
`reviewSingleCandidate`: fold one repeat's judgment into the accumulating
probability map (`probs[k] = probs[k].probability + delta`). -/
def addRepeat (probs : List (String × ℚ)) (results : List (String × Bool)) :
    List (String × ℚ) :=
  results.foldl (fun acc kv => mapUpsert kv.1 (fun p => p + boolDelta kv.2) acc) probs

/-- The aggregation of `reviewSingleCandidate`: accumulate the true-counts
of all repeats, then divide every entry by the number of repeats. -/
def aggregate (repeats : Nat) (resultsPerRepeat : List (List (String × Bool))) :
    List (String × CandidateQuestionResult) :=
  (resultsPerRepeat.foldl addRepeat []).map
    (fun kv => (kv.1, ⟨kv.2 / (repeats : ℚ)⟩))

/-- `reviewSingleCandidate` from `part_000`: run the `repeats` repeats in
parallel via `ParMapRange`, join their errors, and aggregate the judgments
into a probability per key. -/
def reviewSingleCandidate (env : ReviewEnv) (checklist : List (String × String))
    (repeats : Nat) (candidateIndex : Nat) :
    Except GoErr (List (String × CandidateQuestionResult)) :=
  match ParMapRange repeats (fun i => reviewCandidateOnce env checklist candidateIndex i) with
  | .error errs => .error (.join errs)
  | .ok resultsPerRepeat => .ok (aggregate repeats resultsPerRepeat)

/-- `ReviewCandidates` from `part_000`: early-return on no resumes or no
checklist questions, otherwise review every candidate in parallel via
`ParMapRange` (the body of `candidateReviewTask.execute`). -/
def ReviewCandidates (env : ReviewEnv) (checklist : List (String × String))
    (resumes : List String) (numRepeats : Nat) :
    Except GoErr (List (List (String × CandidateQuestionResult))) :=
  if resumes.length = 0 then .ok []
  else if checklist.length = 0 then .ok (List.replicate resumes.length [])
  else
    match ParMapRange resumes.length
        (fun i => reviewSingleCandidate env checklist numRepeats i) with
    | .error errs => .error (.join errs)
    | .ok results => .ok results

/-- The number of model invocations a `ReviewCandidates` run performs: none
on the early-return paths, otherwise one `feedbackMapCall`'s worth per
(candidate, repeat) pair. -/
def ReviewCandidatesCalls (env : ReviewEnv) (checklist : List (String × String))
    (resumes : List String) (numRepeats : Nat) : Nat :=
  if resumes.length = 0 then 0
  else if checklist.length = 0 then 0
  else
    ((List.range resumes.length).map (fun c =>
      ((List.range numRepeats).map (fun r =>
        feedbackMapUsed checklist 10 (env.attempts c r))).sum)).sum

/-- `ConfigScoreChecklistItem` from the config model. -/
structure ConfigScoreChecklistItem where
  Question : String
  Weight : ℚ
  Important : Bool
deriving DecidableEq

/-- The Go zero value of `ConfigScoreChecklistItem`, read for keys absent
from the score checklist. -/
def zeroItem : ConfigScoreChecklistItem := ⟨"", 0, false⟩

/-- `CandidateReport` from `part_004`. -/
structure CandidateReport where
  FileName : String
  FileLoc : String
  Checklist : List (String × CandidateQuestionResult)
  FinalScore : ℚ
deriving DecidableEq

/-- `filepath.Base` from the Go standard library, as used on PDF paths:
empty path gives `"."`, trailing slashes are dropped, the suffix after the
last remaining slash is kept, and an all-slash path gives `"/"`. -/
def filepathBase (path : String) : String :=
  if path.data = [] then "."
  else
    let cs := (path.data.reverse.dropWhile (fun c => c = '/')).reverse
    let base := (cs.reverse.takeWhile (fun c => ¬ (c = '/'))).reverse
    if base = [] then "/" else ⟨base⟩

/-- The final-score loop of `viewRunner.runView`: iterate the result map
and add, for every key whose `IsTrue()` holds, the weight configured for
that key (reading the Go zero value for keys absent from the score
checklist). -/
def finalScore (scoreChecklist : List (String × ConfigScoreChecklistItem))
    (result : List (String × CandidateQuestionResult)) : ℚ :=
  result.foldl
    (fun acc kv =>
      if kv.2.IsTrue then acc + ((alookup kv.1 scoreChecklist).getD zeroItem).Weight
      else acc)
    0

/-- The `less` closure passed to `sort.Slice` in `viewRunner.runView`:
higher score first, ties by file name ascending. -/
def reportLess (a b : CandidateReport) : Bool :=
  if a.FinalScore > b.FinalScore then true
  else if a.FinalScore < b.FinalScore then false
  else strLT a.FileName b.FileName

/-- The per-document reports of `viewRunner.runView`, before sorting: one
report per review result, scored by `finalScore`. -/
def mkReports (scoreChecklist : List (String × ConfigScoreChecklistItem))
    (pdfNames : List String) (results : List (List (String × CandidateQuestionResult))) :
    List CandidateReport :=
  (List.range results.length).map (fun i =>
    { FileName := filepathBase (pdfNames.getD i "")
      FileLoc := pdfNames.getD i ""
      Checklist := results.getD i []
      FinalScore := finalScore scoreChecklist (results.getD i []) })

/-- The report rows of `viewRunner.runView`: the per-document reports,
sorted by `sort.Slice` with `reportLess` (a sort w.r.t. a strict weak
order `less` yields a sequence sorted by `fun a b => ¬ less b a`; it is
modelled by a merge sort with that total relation). -/
def runViewReports (scoreChecklist : List (String × ConfigScoreChecklistItem))
    (pdfNames : List String) (results : List (List (String × CandidateQuestionResult))) :
    List CandidateReport :=
  (mkReports scoreChecklist pdfNames results).mergeSort (fun a b => ! reportLess b a)

/-- The row order the spec claims: descending final score, ties broken by
file name ascending. -/
def scoreDescNameAsc (a b : CandidateReport) : Prop :=
  b.FinalScore < a.FinalScore ∨
    (b.FinalScore = a.FinalScore ∧ strLT b.FileName a.FileName = false)

/-- The final score as the spec words it: the sum of the weights of the
checklist keys whose `IsTrue()` holds for that document (a key absent from
the document's result map reads as the zero-probability result, whose
`IsTrue()` is false).  Stated from the spec, to be compared with
`finalScore`, which is transcribed from the source. -/
def specFinalScore (scoreChecklist : List (String × ConfigScoreChecklistItem))
    (result : List (String × CandidateQuestionResult)) : ℚ :=
  ((scoreChecklist.filter
    (fun kv => ((alookup kv.1 result).getD ⟨0⟩).IsTrue)).map
      (fun kv => kv.2.Weight)).sum

/-! ## Concrete oracles used to witness the theorems on concrete runs -/

/-- An oracle whose model never answers (no attempt yields a response). -/
def envEmpty : ReviewEnv := ⟨fun _ _ => []⟩

/-- A response answering `true` to the single checklist key `"k"`. -/
def respTrue : CandidateReviewResponse := [("k", ⟨"", true⟩)]

/-- A response answering `false` to the single checklist key `"k"`. -/
def respFalse : CandidateReviewResponse := [("k", ⟨"", false⟩)]

/-- A response answering the checklist key `"k"` and the extra key
`"extra"` (not part of any checklist) with `true`. -/
def respExtra : CandidateReviewResponse := [("k", ⟨"", true⟩), ("extra", ⟨"", true⟩)]

/-- An oracle that answers `true` on the first repeat and `false` on every
other repeat, in one attempt. -/
def envSplit : ReviewEnv := ⟨fun _ r => [some (if r = 0 then respTrue else respFalse)]⟩

/-- An oracle that always answers `true` in one attempt. -/
def envTrue : ReviewEnv := ⟨fun _ _ => [some respTrue]⟩

/-- An oracle answering the extra key on the first repeat only. -/
def envExtra : ReviewEnv := ⟨fun _ r => [some (if r = 0 then respExtra else respFalse)]⟩

/-- The judgments produced by `envSplit` on checklist `[("k", _)]`. -/
def jsSplit : Nat → List (String × Bool) :=
  fun r => if r = 0 then [("k", true)] else [("k", false)]

/-- The judgments produced by `envExtra` on checklist `[("k", _)]`. -/
def jsExtra : Nat → List (String × Bool) :=
  fun r => if r = 0 then [("k", true), ("extra", true)] else [("k", false)]

/-! ## General lemmas about the executor -/

/-- If a function is pointwise `some` on a list, `filterMap` is a `map`. -/
theorem filterMap_eq_map_of_some {α β : Type} (l : List α) (p : α → Option β) (q : α → β)
    (h : ∀ a ∈ l, p a = some (q a)) : l.filterMap p = l.map q := by
  induction l with
  | nil => rfl
  | cons a rest ih =>
    simp only [List.filterMap_cons, List.map_cons, h a (List.mem_cons_self a rest)]
    exact congrArg _ (ih fun b hb => h b (List.mem_cons_of_mem a hb))

/-- If every unit succeeds, `ParMap` returns the results of the units,
index-aligned with the inputs. -/
theorem parMap_ok_of_forall {T U E : Type} (inputs : List T) (fn : T → Except E U)
    (g : T → U) (hok : ∀ t ∈ inputs, fn t = .ok (g t)) :
    ParMap inputs fn = .ok (inputs.map g) := by
  have herr : (inputs.map fn).filterMap errPart = [] := by
    rw [List.filterMap_eq_nil_iff]
    intro a ha
    obtain ⟨t, ht, rfl⟩ := List.mem_map.mp ha
    rw [hok t ht]; rfl
  have hres : (inputs.map fn).filterMap okPart = inputs.map g := by
    rw [List.filterMap_map]
    exact filterMap_eq_map_of_some _ _ _ fun t ht => by
      simp only [Function.comp_apply, hok t ht]; rfl
  simp only [ParMap, herr, hres, List.isEmpty_nil, if_true]

/-- If some unit fails, `ParMap` returns the joined error, every failing
unit's error is in it, and no result list is returned. -/
theorem parMap_error_spec {T U E : Type} (inputs : List T) (fn : T → Except E U)
    (t₀ : T) (e₀ : E) (ht₀ : t₀ ∈ inputs) (he₀ : fn t₀ = .error e₀) :
    ∃ errs : List E, ParMap inputs fn = .error errs ∧
      (∀ t ∈ inputs, ∀ e : E, fn t = .error e → e ∈ errs) ∧
      ∀ us : List U, ParMap inputs fn ≠ .ok us := by
  have hmem : ∀ t ∈ inputs, ∀ e : E, fn t = .error e →
      e ∈ (inputs.map fn).filterMap errPart := by
    intro t ht e he
    exact List.mem_filterMap.mpr ⟨fn t, List.mem_map_of_mem fn ht, by rw [he]; rfl⟩
  have hne : ((inputs.map fn).filterMap errPart).isEmpty = false := by
    rw [List.isEmpty_eq_false_iff_exists_mem]
    exact ⟨e₀, hmem t₀ ht₀ e₀ he₀⟩
  refine ⟨(inputs.map fn).filterMap errPart, ?_, hmem, ?_⟩
  · simp only [ParMap, hne]
    rfl
  · intro us
    simp only [ParMap, hne]
    exact fun h => Except.noConfusion h

/-- The result slots after the goroutines of `ParMapSched` complete in the
given order: a slot holds the success value of its own unit once that unit
has completed, and is untouched otherwise. -/
theorem sched_fst_lookup {U E : Type} (f : Nat → Except E U) (order : List Nat)
    (acc : (Nat → Option U) × (Nat → Option E)) (j : Nat) :
    (order.foldl (schedStep f) acc).1 j =
      if j ∈ order ∧ (okPart (f j)).isSome then okPart (f j) else acc.1 j := by
  induction order generalizing acc with
  | nil => simp
  | cons i rest ih =>
    simp only [List.foldl_cons]
    rw [ih]
    by_cases hjr : j ∈ rest
    · by_cases hok : (okPart (f j)).isSome
      · simp [hjr, hok]
      · simp only [hjr, hok, and_false, if_false, List.mem_cons, true_or, or_true]
        unfold schedStep
        match hfi : f i with
        | .ok u =>
          simp only
          by_cases hji : j = i
          · exfalso; apply hok; rw [hji, hfi]; rfl
          · simp [hji]
        | .error e => simp
    · by_cases hji : j = i
      · subst hji
        simp only [hjr, false_and, if_false, List.mem_cons, true_or, true_and]
        unfold schedStep
        match hfj : f j with
        | .ok u => simp [okPart, hfj]
        | .error e => simp [okPart, hfj]
      · have : ¬ j ∈ (i :: rest) := by
          simp [List.mem_cons, hji, hjr]
        simp only [hjr, false_and, if_false, this]
        unfold schedStep
        match hfi : f i with
        | .ok u => simp [hji]
        | .error e => simp

/-- The error slots after the goroutines of `ParMapSched` complete in the
given order. -/
theorem sched_snd_lookup {U E : Type} (f : Nat → Except E U) (order : List Nat)
    (acc : (Nat → Option U) × (Nat → Option E)) (j : Nat) :
    (order.foldl (schedStep f) acc).2 j =
      if j ∈ order ∧ (errPart (f j)).isSome then errPart (f j) else acc.2 j := by
  induction order generalizing acc with
  | nil => simp
  | cons i rest ih =>
    simp only [List.foldl_cons]
    rw [ih]
    by_cases hjr : j ∈ rest
    · by_cases herr : (errPart (f j)).isSome
      · simp [hjr, herr]
      · simp only [hjr, herr, and_false, if_false, List.mem_cons, true_or, or_true]
        unfold schedStep
        match hfi : f i with
        | .ok u => simp
        | .error e =>
          simp only
          by_cases hji : j = i
          · exfalso; apply herr; rw [hji, hfi]; rfl
          · simp [hji]
    · by_cases hji : j = i
      · subst hji
        simp only [hjr, false_and, if_false, List.mem_cons, true_or, true_and]
        unfold schedStep
        match hfj : f j with
        | .ok u => simp [errPart, hfj]
        | .error e => simp [errPart, hfj]
      · have : ¬ j ∈ (i :: rest) := by
          simp [List.mem_cons, hji, hjr]
        simp only [hjr, false_and, if_false, this]
        unfold schedStep
        match hfi : f i with
        | .ok u => simp
        | .error e => simp [hji]

/-- If every unit succeeds and every index is eventually scheduled, the
scheduled executor returns the index-aligned results, whatever the
completion order. -/
theorem parMapSched_ok_of_forall {U E : Type} (n : Nat) (f : Nat → Except E U)
    (h : Nat → U) (hfok : ∀ i < n, f i = .ok (h i)) (order : List Nat)
    (hord : ∀ j < n, j ∈ order) :
    ParMapSched n f order = .ok ((List.range n).map h) := by
  have herr : (List.range n).filterMap
      (order.foldl (schedStep f) (fun _ => none, fun _ => none)).2 = [] := by
    rw [List.filterMap_eq_nil_iff]
    intro j hj
    rw [sched_snd_lookup]
    have : errPart (f j) = none := by rw [hfok j (List.mem_range.mp hj)]; rfl
    simp [this]
  have hres : (List.range n).filterMap
      (order.foldl (schedStep f) (fun _ => none, fun _ => none)).1 = (List.range n).map h := by
    refine filterMap_eq_map_of_some _ _ _ fun j hj => ?_
    have hjn := List.mem_range.mp hj
    rw [sched_fst_lookup]
    have hokj : okPart (f j) = some (h j) := by rw [hfok j hjn]; rfl
    simp [hord j hjn, hokj]
  simp only [ParMapSched, herr, hres, List.isEmpty_nil, if_true]

/-! ## Claim C2: error joining in the fan-out executor -/

/-- C2: if at least one of the units given to `ParMap` fails, the executor
returns an aggregate error in which every failing unit's error is
discoverable, and it returns no (partial) result list. -/
theorem parMap_joins_all_errors {T U E : Type} (inputs : List T) (fn : T → Except E U)
    (t₀ : T) (e₀ : E) (ht₀ : t₀ ∈ inputs) (he₀ : fn t₀ = .error e₀) :
    ∃ errs : List E, ParMap inputs fn = .error errs ∧
      (∀ t ∈ inputs, ∀ e : E, fn t = .error e → e ∈ errs) ∧
      ∀ us : List U, ParMap inputs fn ≠ .ok us :=
  parMap_error_spec inputs fn t₀ e₀ ht₀ he₀

/-- Witness for C2: tasks 2 and 5 of 10 fail with distinct errors; both
errors appear in the aggregate, and no result list is produced. -/
theorem parMap_joins_all_errors_witness :
    ∃ errs : List String,
      ParMap (List.range 10)
        (fun i => if i = 2 then .error "err2" else if i = 5 then .error "err5"
                  else .ok (i * i)) = .error errs ∧
      (∀ t ∈ List.range 10, ∀ e : String,
        (fun i => if i = 2 then Except.error "err2" else if i = 5 then .error "err5"
                  else Except.ok (i * i)) t = .error e → e ∈ errs) ∧
      ∀ us : List Nat,
        ParMap (List.range 10)
          (fun i => if i = 2 then .error "err2" else if i = 5 then .error "err5"
                    else .ok (i * i)) ≠ .ok us :=
  parMap_joins_all_errors (List.range 10) _ 2 "err2" (by decide) rfl

/-! ## Claim C3: index alignment of the fan-out executor -/

/-- C3: when every unit succeeds, the result sequence of `ParMap` (and of
`ParMapRange` over `[0, n)`) is index-aligned with the input — output `i`
is the unit's result on input `i` — and this is independent of the order in
which the concurrent units complete (any completion order that runs every
unit yields the same value). -/
theorem parMap_ok_index_aligned {T U E : Type} (inputs : List T) (fn : T → Except E U)
    (g : T → U) (hok : ∀ t ∈ inputs, fn t = .ok (g t))
    (n : Nat) (f : Nat → Except E U) (h : Nat → U) (hfok : ∀ i < n, f i = .ok (h i))
    (order : List Nat) (hord : ∀ j < n, j ∈ order) :
    ParMap inputs fn = .ok (inputs.map g) ∧
    ParMapRange n f = .ok ((List.range n).map h) ∧
    ParMapSched n f order = ParMapRange n f := by
  have hrange : ParMapRange n f = .ok ((List.range n).map h) :=
    parMap_ok_of_forall (List.range n) f h fun i hi => hfok i (List.mem_range.mp hi)
  exact ⟨parMap_ok_of_forall inputs fn g hok, hrange,
    by rw [parMapSched_ok_of_forall n f h hfok order hord, hrange]⟩

/-- Witness for C3: 5 tasks with task `i` returning `i*i`, scheduled in a
scrambled completion order, produce `[0, 1, 4, 9, 16]`. -/
theorem parMap_ok_index_aligned_witness :
    ParMap [0, 1, 2, 3, 4] (fun i => (Except.ok (i * i) : Except String Nat)) =
      .ok ([0, 1, 2, 3, 4].map (fun i => i * i)) ∧
    ParMapRange 5 (fun i => (Except.ok (i * i) : Except String Nat)) =
      .ok ((List.range 5).map (fun i => i * i)) ∧
    ParMapSched 5 (fun i => (Except.ok (i * i) : Except String Nat)) [3, 1, 4, 0, 2, 2] =
      ParMapRange 5 (fun i => (Except.ok (i * i) : Except String Nat)) :=
  parMap_ok_index_aligned [0, 1, 2, 3, 4] _ (fun i => i * i) (fun t _ => rfl)
    5 _ (fun i => i * i) (fun i _ => rfl) [3, 1, 4, 0, 2, 2] (by decide)

/-! ## Claim C5: the inconsistency projection -/

/-- C5: `Inconsistency()` equals `2 * min(p, 1 - p)`; it is `0` at `p = 0`
and at `p = 1` (unanimous repeats) and `1` at `p = 1/2` (split vote). -/
theorem inconsistency_eq_two_mul_min :
    (∀ c : CandidateQuestionResult,
      c.Inconsistency = 2 * min c.probability (1 - c.probability)) ∧
    CandidateQuestionResult.Inconsistency ⟨0⟩ = 0 ∧
    CandidateQuestionResult.Inconsistency ⟨1⟩ = 0 ∧
    CandidateQuestionResult.Inconsistency ⟨1/2⟩ = 1 := by
  refine ⟨fun c => ?_, ?_, ?_, ?_⟩ <;>
    simp [CandidateQuestionResult.Inconsistency] <;> norm_num [mul_comm]

/-! ## Claim C6: the binarized verdict -/

/-- C6: `IsTrue()` holds exactly when the probability is strictly greater
than `1/2`; in particular a probability of exactly `1/2` yields
`IsTrue() = false`. -/
theorem isTrue_iff_prob_gt_half :
    (∀ c : CandidateQuestionResult, c.IsTrue = true ↔ c.probability > 1/2) ∧
    CandidateQuestionResult.IsTrue ⟨1/2⟩ = false := by
  constructor
  · intro c
    simp [CandidateQuestionResult.IsTrue]
  · simp [CandidateQuestionResult.IsTrue]

/-! ## Association-list lemmas -/

/-- Looking up a key that is not among the keys yields `none`. -/
theorem alookup_eq_none_of_not_mem {β : Type} (k : String) (l : List (String × β))
    (h : k ∉ l.map Prod.fst) : alookup k l = none := by
  induction l with
  | nil => rfl
  | cons kv rest ih =>
    obtain ⟨k₁, v⟩ := kv
    simp only [List.map_cons, List.mem_cons, not_or] at h
    simp only [alookup, if_neg (fun hk : k₁ = k => h.1 hk.symm)]
    exact ih h.2

/-- Mapping the values of an association list commutes with lookup. -/
theorem alookup_mapValues {β γ : Type} (f : β → γ) (k : String) (l : List (String × β)) :
    alookup k (l.map (fun kv => (kv.1, f kv.2))) = (alookup k l).map f := by
  induction l with
  | nil => rfl
  | cons kv rest ih =>
    obtain ⟨k₁, v⟩ := kv
    by_cases h : k₁ = k
    · simp [alookup, h]
    · simp [alookup, h, ih]

/-- `m[k] = f(m[k])` read back at `k` (missing keys read as `0`, the Go
zero value). -/
theorem alookup_mapUpsert_self (k : String) (f : ℚ → ℚ) (l : List (String × ℚ)) :
    alookup k (mapUpsert k f l) = some (f ((alookup k l).getD 0)) := by
  induction l with
  | nil => simp [mapUpsert, alookup]
  | cons kv rest ih =>
    obtain ⟨k₁, v⟩ := kv
    by_cases h : k₁ = k
    · simp [mapUpsert, alookup, h]
    · simp [mapUpsert, alookup, h, ih]

/-- `m[k'] = f(m[k'])` leaves other keys unchanged. -/
theorem alookup_mapUpsert_other (k' k : String) (hk : k' ≠ k) (f : ℚ → ℚ)
    (l : List (String × ℚ)) :
    alookup k (mapUpsert k' f l) = alookup k l := by
  induction l with
  | nil => simp [mapUpsert, alookup, fun h : k' = k => hk h]
  | cons kv rest ih =>
    obtain ⟨k₁, v⟩ := kv
    by_cases h : k₁ = k'
    · subst h
      simp [mapUpsert, alookup, fun h : k₁ = k => hk h]
    · by_cases h2 : k₁ = k
      · subst h2
        simp [mapUpsert, alookup, h]
      · simp [mapUpsert, alookup, h, h2, ih]

/-- Folding one repeat's judgment into the accumulator adds that repeat's
0/1 delta at every key of the judgment and touches nothing else (judgment
keys are distinct, as in a Go map). -/
theorem alookup_addRepeat (probs : List (String × ℚ)) (results : List (String × Bool))
    (hnd : (results.map Prod.fst).Nodup) (k : String) :
    alookup k (addRepeat probs results) =
      match alookup k results with
      | none => alookup k probs
      | some v => some ((alookup k probs).getD 0 + boolDelta v) := by
  induction results generalizing probs with
  | nil => rfl
  | cons kv rest ih =>
    obtain ⟨k₀, v₀⟩ := kv
    simp only [List.map_cons, List.nodup_cons] at hnd
    have hfold : addRepeat probs ((k₀, v₀) :: rest)
        = addRepeat (mapUpsert k₀ (fun p => p + boolDelta v₀) probs) rest := rfl
    rw [hfold, ih _ hnd.2]
    by_cases h : k₀ = k
    · subst h
      have hr : alookup k₀ rest = none := alookup_eq_none_of_not_mem _ _ hnd.1
      simp [hr, alookup, alookup_mapUpsert_self]
    · rw [alookup_mapUpsert_other k₀ k h]
      simp [alookup, h]

/-- If no judgment of the list answers `k`, the lookups filter to nothing. -/
theorem filterMap_alookup_eq_nil (k : String) (resultss : List (List (String × Bool)))
    (h : resultss.any (fun r => (alookup k r).isSome) = false) :
    resultss.filterMap (fun r => alookup k r) = [] := by
  rw [List.filterMap_eq_nil_iff]
  intro r hr
  have := List.any_eq_false.mp h r hr
  exact Option.not_isSome_iff_eq_none.mp (by simpa using this)

/-- The accumulation loop of `reviewSingleCandidate`, read back at one key:
present iff some repeat answered the key, and in that case the accumulated
value is the number of `true` answers for that key (each judgment's keys
are distinct, as in a Go map). -/
theorem alookup_foldl_addRepeat (k : String) (resultss : List (List (String × Bool)))
    (probs : List (String × ℚ)) (hnd : ∀ r ∈ resultss, (r.map Prod.fst).Nodup) :
    alookup k (resultss.foldl addRepeat probs) =
      if resultss.any (fun r => (alookup k r).isSome)
      then some ((alookup k probs).getD 0
        + ((resultss.filterMap (fun r => alookup k r)).count true : ℚ))
      else alookup k probs := by
  induction resultss generalizing probs with
  | nil => simp
  | cons r rest ih =>
    simp only [List.foldl_cons]
    rw [ih _ (fun x hx => hnd x (List.mem_cons_of_mem r hx))]
    have hr := alookup_addRepeat probs r (hnd r (List.mem_cons_self r rest)) k
    cases halr : alookup k r with
    | none =>
      rw [halr] at hr
      simp only [hr, List.any_cons, halr, Option.isSome_none, Bool.false_or,
        List.filterMap_cons_none halr]
    | some v =>
      rw [halr] at hr
      by_cases hany : (rest.any fun x => (alookup k x).isSome) = true
      · simp only [hr, List.any_cons, halr, Option.isSome_some, Bool.true_or, hany,
          if_true, Option.getD_some, List.filterMap_cons_some halr, List.count_cons]
        cases v
        · simp [boolDelta]
        · simp [boolDelta]
          ring_nf
      · have hnil := filterMap_alookup_eq_nil k rest (by simpa using hany)
        simp only [hr, List.any_cons, halr, Option.isSome_some, Bool.true_or, hany,
          if_true, if_false, Bool.false_eq_true, Option.getD_some,
          List.filterMap_cons_some halr, hnil, List.count_cons, List.count_nil]
        cases v <;> simp [boolDelta]

/-- One key of the final per-candidate probability map: present iff some
repeat answered it, with value (number of `true` answers) / (number of
repeats). -/
theorem alookup_aggregate (repeats : Nat) (rpr : List (List (String × Bool)))
    (hnd : ∀ r ∈ rpr, (r.map Prod.fst).Nodup) (k : String) :
    alookup k (aggregate repeats rpr) =
      if rpr.any (fun r => (alookup k r).isSome)
      then some ⟨((rpr.filterMap (fun r => alookup k r)).count true : ℚ) / (repeats : ℚ)⟩
      else none := by
  unfold aggregate
  rw [alookup_mapValues (fun q => (⟨q / (repeats : ℚ)⟩ : CandidateQuestionResult)) k]
  rw [alookup_foldl_addRepeat k rpr [] hnd]
  by_cases hany : rpr.any (fun r => (alookup k r).isSome)
  · simp [hany, alookup]
  · simp [hany, alookup]

/-- Upserting key `k'` makes exactly `k'` present, and preserves presence
elsewhere (no distinctness needed). -/
theorem isSome_mapUpsert (k' k : String) (f : ℚ → ℚ) (l : List (String × ℚ)) :
    (alookup k (mapUpsert k' f l)).isSome ↔ k' = k ∨ (alookup k l).isSome := by
  by_cases h : k' = k
  · subst h
    simp [alookup_mapUpsert_self]
  · rw [alookup_mapUpsert_other k' k h]
    simp [h]

/-- Folding a judgment into the accumulator makes present exactly the
accumulator's keys and the judgment's keys. -/
theorem isSome_addRepeat (probs : List (String × ℚ)) (results : List (String × Bool))
    (k : String) :
    (alookup k (addRepeat probs results)).isSome
      ↔ (alookup k probs).isSome ∨ (alookup k results).isSome := by
  induction results generalizing probs with
  | nil => simp [addRepeat, alookup]
  | cons kv rest ih =>
    obtain ⟨k₀, v₀⟩ := kv
    have hfold : addRepeat probs ((k₀, v₀) :: rest)
        = addRepeat (mapUpsert k₀ (fun p => p + boolDelta v₀) probs) rest := rfl
    rw [hfold, ih]
    rw [isSome_mapUpsert]
    by_cases h : k₀ = k
    · simp [alookup, h]
    · simp [alookup, h]

/-- The accumulated key set is the union of the judgments' key sets. -/
theorem isSome_foldl_addRepeat (k : String) (resultss : List (List (String × Bool)))
    (probs : List (String × ℚ)) :
    (alookup k (resultss.foldl addRepeat probs)).isSome
      ↔ (alookup k probs).isSome ∨ ∃ r ∈ resultss, (alookup k r).isSome := by
  induction resultss generalizing probs with
  | nil => simp
  | cons r rest ih =>
    simp only [List.foldl_cons]
    rw [ih, isSome_addRepeat]
    constructor
    · rintro (( h | h ) | ⟨x, hx, hs⟩)
      · exact Or.inl h
      · exact Or.inr ⟨r, List.mem_cons_self r rest, h⟩
      · exact Or.inr ⟨x, List.mem_cons_of_mem r hx, hs⟩
    · rintro (h | ⟨x, hx, hs⟩)
      · exact Or.inl (Or.inl h)
      · rcases List.mem_cons.mp hx with rfl | hx2
        · exact Or.inl (Or.inr hs)
        · exact Or.inr ⟨x, hx2, hs⟩

/-- The key set of the final per-candidate map is the union of the key
sets of the repeats' judgments. -/
theorem isSome_aggregate (repeats : Nat) (rpr : List (List (String × Bool))) (k : String) :
    (alookup k (aggregate repeats rpr)).isSome ↔ ∃ r ∈ rpr, (alookup k r).isSome := by
  unfold aggregate
  rw [alookup_mapValues (fun q => (⟨q / (repeats : ℚ)⟩ : CandidateQuestionResult)) k]
  rw [show ∀ o : Option ℚ,
      (Option.map (fun q => (⟨q / (repeats : ℚ)⟩ : CandidateQuestionResult)) o).isSome
        = o.isSome from fun o => by cases o <;> rfl]
  rw [isSome_foldl_addRepeat]
  simp [alookup]

/-! ## Lemmas about the call pipeline and the review engine -/

/-- The validator accepts exactly the responses answering every checklist
key (extra keys are never examined). -/
theorem missingKeys_eq_nil_iff (checklist : List (String × String))
    (resp : CandidateReviewResponse) :
    missingKeys checklist resp = [] ↔ ∀ kq ∈ checklist, (alookup kq.1 resp).isSome := by
  unfold missingKeys
  rw [List.filter_eq_nil_iff]
  constructor
  · intro h kq hkq
    have h2 := h kq.1 (List.mem_map_of_mem Prod.fst hkq)
    cases halk : alookup kq.1 resp with
    | none => rw [halk] at h2; simp at h2
    | some v => rfl
  · intro h a ha
    obtain ⟨kq, hkq, rfl⟩ := List.mem_map.mp ha
    have h2 := h kq hkq
    cases halk : alookup kq.1 resp with
    | none => rw [halk] at h2; simp at h2
    | some v => simp

/-- A successful typed LLM call returns a response that passed the
validator and that the oracle actually produced on some attempt. -/
theorem feedbackMapCall_ok (checklist : List (String × String)) (fuel : Nat)
    (attempts : List (Option CandidateReviewResponse)) (resp : CandidateReviewResponse)
    (h : feedbackMapCall checklist fuel attempts = .ok resp) :
    missingKeys checklist resp = [] ∧ some resp ∈ attempts := by
  induction fuel generalizing attempts with
  | zero => exact absurd h (by simp [feedbackMapCall])
  | succ n ih =>
    match attempts with
    | [] => exact absurd h (by simp [feedbackMapCall])
    | none :: rest =>
      obtain ⟨h1, h2⟩ := ih rest h
      exact ⟨h1, List.mem_cons_of_mem _ h2⟩
    | some r :: rest =>
      rw [feedbackMapCall] at h
      by_cases hv : missingKeys checklist r = []
      · rw [if_pos hv] at h
        cases h
        exact ⟨hv, List.mem_cons_self _ _⟩
      · rw [if_neg hv] at h
        obtain ⟨h1, h2⟩ := ih rest h
        exact ⟨h1, List.mem_cons_of_mem _ h2⟩

/-- A successful single-repeat review is the boolean projection of a
validated oracle response. -/
theorem reviewCandidateOnce_ok (env : ReviewEnv) (checklist : List (String × String))
    (c r : Nat) (ans : List (String × Bool))
    (h : reviewCandidateOnce env checklist c r = .ok ans) :
    ∃ resp, feedbackMapCall checklist 10 (env.attempts c r) = .ok resp ∧
      ans = resp.map (fun kv => (kv.1, kv.2.answer)) := by
  unfold reviewCandidateOnce at h
  cases hfmc : feedbackMapCall checklist 10 (env.attempts c r) with
  | error e => rw [hfmc] at h; exact absurd h (by simp)
  | ok resp =>
    rw [hfmc] at h
    simp only [Except.ok.injEq] at h
    exact ⟨resp, rfl, h.symm⟩

/-- `okPart` inverts to a success equation. -/
theorem okPart_eq_some {E U : Type} (x : Except E U) (u : U) (h : okPart x = some u) :
    x = .ok u := by
  cases x with
  | ok v => cases h; rfl
  | error e => exact absurd h (by simp [okPart])

/-- A successful `ParMap` means every unit succeeded, and the results are
the units' successful values in input order. -/
theorem parMap_ok_inv {T U E : Type} (inputs : List T) (fn : T → Except E U) (us : List U)
    (h : ParMap inputs fn = .ok us) :
    us = (inputs.map fn).filterMap okPart ∧ ∀ t ∈ inputs, ∃ u, fn t = .ok u := by
  unfold ParMap at h
  by_cases he : ((inputs.map fn).filterMap errPart).isEmpty
  · rw [if_pos he] at h
    simp only [Except.ok.injEq] at h
    refine ⟨h.symm, fun t ht => ?_⟩
    have hnone : errPart (fn t) = none := by
      have := List.filterMap_eq_nil_iff.mp (List.isEmpty_iff.mp he) (fn t)
        (List.mem_map_of_mem fn ht)
      exact this
    cases hfn : fn t with
    | ok u => exact ⟨u, rfl⟩
    | error e => rw [hfn] at hnone; exact absurd hnone (by simp [errPart])
  · rw [if_neg he] at h
    exact absurd h (by simp)

/-- When a pointwise-`isSome` function is filter-mapped, the length is
preserved. -/
theorem filterMap_length_of_isSome {α β : Type} (l : List α) (p : α → Option β)
    (h : ∀ a ∈ l, (p a).isSome) : (l.filterMap p).length = l.length := by
  induction l with
  | nil => rfl
  | cons a rest ih =>
    obtain ⟨b, hb⟩ := Option.isSome_iff_exists.mp (h a (List.mem_cons_self a rest))
    rw [List.filterMap_cons_some hb, List.length_cons, List.length_cons,
      ih fun x hx => h x (List.mem_cons_of_mem a hx)]

/-- A successful `reviewSingleCandidate` is the aggregation of a list of
successful, validated repeat judgments (one per repeat, in repeat order). -/
theorem reviewSingleCandidate_ok (env : ReviewEnv) (checklist : List (String × String))
    (repeats : Nat) (c : Nat) (m : List (String × CandidateQuestionResult))
    (h : reviewSingleCandidate env checklist repeats c = .ok m) :
    ∃ rpr, ParMapRange repeats (fun i => reviewCandidateOnce env checklist c i) = .ok rpr ∧
      m = aggregate repeats rpr ∧ rpr.length = repeats ∧
      ∀ r ∈ rpr, ∃ resp, missingKeys checklist resp = [] ∧
        r = resp.map (fun kv => (kv.1, kv.2.answer)) := by
  unfold reviewSingleCandidate at h
  cases hpm : ParMapRange repeats (fun i => reviewCandidateOnce env checklist c i) with
  | error errs => rw [hpm] at h; exact absurd h (by simp)
  | ok rpr =>
    rw [hpm] at h
    simp only [Except.ok.injEq] at h
    obtain ⟨hrpr, hall⟩ := parMap_ok_inv _ _ _ hpm
    have hsome : ∀ a ∈ (List.range repeats).map (fun i => reviewCandidateOnce env checklist c i),
        (okPart a).isSome := by
      intro a ha
      obtain ⟨i, hi, rfl⟩ := List.mem_map.mp ha
      obtain ⟨u, hu⟩ := hall i hi
      rw [hu]; rfl
    refine ⟨rpr, rfl, h.symm, ?_, ?_⟩
    · rw [hrpr, filterMap_length_of_isSome _ _ hsome, List.length_map, List.length_range]
    · intro r hr
      rw [hrpr] at hr
      obtain ⟨a, ha, hpa⟩ := List.mem_filterMap.mp hr
      obtain ⟨i, hi, rfl⟩ := List.mem_map.mp ha
      have honce := okPart_eq_some _ _ hpa
      obtain ⟨resp, hfmc, hans⟩ := reviewCandidateOnce_ok env checklist c i r honce
      exact ⟨resp, (feedbackMapCall_ok checklist 10 _ resp hfmc).1, hans⟩

/-- Key presence survives the projection of a response to its boolean
answers. -/
theorem isSome_alookup_answers (resp : CandidateReviewResponse) (k : String) :
    (alookup k (resp.map (fun kv => (kv.1, kv.2.answer)))).isSome
      = (alookup k resp).isSome := by
  rw [alookup_mapValues]
  cases alookup k resp <;> rfl

/-- Counting `true` among looked-up answers equals counting the indices
whose lookup is `some true` (an index without an answer contributes to
neither side). -/
theorem count_true_filterMap {α : Type} (l : List α) (q : α → Option Bool) :
    (l.filterMap q).count true = l.countP (fun r => q r = some true) := by
  induction l with
  | nil => rfl
  | cons a rest ih =>
    cases hqa : q a with
    | none =>
      rw [List.filterMap_cons_none hqa, List.countP_cons, ih, hqa]
      simp
    | some b =>
      rw [List.filterMap_cons_some hqa, List.count_cons, List.countP_cons, ih, hqa]
      cases b <;> simp

/-! ## Claim C1: probability is the share of true votes -/

/-- C1: for every document reviewed with `R ≥ 1` repeats that all succeed,
and every key contained in every repeat's judgment, the probability stored
in the returned `CandidateQuestionResult` for that key equals (number of
repeats whose judgment for the key is `true`) divided by `R`. -/
theorem reviewSingleCandidate_probability_is_vote_share
    (env : ReviewEnv) (checklist : List (String × String)) (repeats cand : Nat)
    (js : Nat → List (String × Bool)) (k : String)
    (h1 : 1 ≤ repeats)
    (hok : ∀ r < repeats, reviewCandidateOnce env checklist cand r = .ok (js r))
    (hnd : ∀ r < repeats, ((js r).map Prod.fst).Nodup)
    (hk : ∀ r < repeats, (alookup k (js r)).isSome) :
    ∃ res, reviewSingleCandidate env checklist repeats cand = .ok res ∧
      alookup k res = some ⟨(((List.range repeats).countP
        (fun r => alookup k (js r) = some true) : ℚ)) / (repeats : ℚ)⟩ := by
  have hpm : ParMapRange repeats (fun i => reviewCandidateOnce env checklist cand i)
      = .ok ((List.range repeats).map js) :=
    parMap_ok_of_forall _ _ js fun r hr => hok r (List.mem_range.mp hr)
  refine ⟨aggregate repeats ((List.range repeats).map js), ?_, ?_⟩
  · unfold reviewSingleCandidate
    rw [hpm]
  · have hndm : ∀ r ∈ (List.range repeats).map js, (r.map Prod.fst).Nodup := by
      intro r hr
      obtain ⟨i, hi, rfl⟩ := List.mem_map.mp hr
      exact hnd i (List.mem_range.mp hi)
    rw [alookup_aggregate repeats _ hndm k]
    have hany : (((List.range repeats).map js).any fun r => (alookup k r).isSome) = true := by
      rw [List.any_eq_true]
      exact ⟨js 0, List.mem_map_of_mem js (List.mem_range.mpr h1), hk 0 h1⟩
    rw [if_pos hany, List.filterMap_map,
      count_true_filterMap (List.range repeats) ((fun r => alookup k r) ∘ js)]
    simp only [Function.comp]

/-- Witness for C1: 2 repeats, one `true` and one `false` answer for key
`"k"`, yielding the vote share `(count of true)/2`. -/
theorem reviewSingleCandidate_probability_is_vote_share_witness :
    ∃ res, reviewSingleCandidate envSplit [("k", "does the candidate fit")] 2 0 = .ok res ∧
      alookup "k" res = some ⟨(((List.range 2).countP
        (fun r => alookup "k" (jsSplit r) = some true) : ℚ)) / ((2 : Nat) : ℚ)⟩ :=
  reviewSingleCandidate_probability_is_vote_share envSplit
    [("k", "does the candidate fit")] 2 0 jsSplit "k"
    (by norm_num)
    (by intro r hr; interval_cases r <;> rfl)
    (by decide) (by decide)

/-! ## Claim C4 (corrected): no partial-success document result -/

/-- Counterexample to C4 as stated: with `repeats = 0` (which the code
does not reject) `ReviewCandidates` returns successfully, yet the
document's mapping is empty and answers no checklist key. -/
theorem reviewCandidates_zero_repeats_incomplete_cex :
    ReviewCandidates envEmpty [("k", "q")] ["resume a"] 0 = .ok [[]] ∧
    ("k", "q") ∈ [("k", "q")] ∧
    alookup "k" ([] : List (String × CandidateQuestionResult)) = none :=
  ⟨rfl, by decide, rfl⟩

/-- C4 (amended: provided the number of repeats is at least 1): a
successful `ReviewCandidates` run returns one mapping per document and
every mapping answers every checklist key; and if any repeat of any
document ultimately fails, the whole review returns an error instead. -/
theorem reviewCandidates_no_partial_success
    (env : ReviewEnv) (checklist : List (String × String)) (resumes : List String)
    (repeats : Nat) (h1 : 1 ≤ repeats) :
    (∀ results, ReviewCandidates env checklist resumes repeats = .ok results →
      results.length = resumes.length ∧
      ∀ m ∈ results, ∀ kq ∈ checklist, (alookup kq.1 m).isSome) ∧
    (∀ (c r : Nat) (e : GoErr), resumes ≠ [] → checklist ≠ [] →
      c < resumes.length → r < repeats →
      reviewCandidateOnce env checklist c r = .error e →
      ∃ e₂, ReviewCandidates env checklist resumes repeats = .error e₂) := by
  constructor
  · intro results hres
    unfold ReviewCandidates at hres
    by_cases hrl : resumes.length = 0
    · rw [if_pos hrl] at hres
      simp only [Except.ok.injEq] at hres
      subst hres
      exact ⟨by simp [hrl], by simp⟩
    · rw [if_neg hrl] at hres
      by_cases hcl : checklist.length = 0
      · rw [if_pos hcl] at hres
        simp only [Except.ok.injEq] at hres
        subst hres
        refine ⟨by simp, fun m _ kq hkq => ?_⟩
        rw [List.length_eq_zero.mp hcl] at hkq
        exact absurd hkq (List.not_mem_nil kq)
      · rw [if_neg hcl] at hres
        cases hpm : ParMapRange resumes.length
            (fun i => reviewSingleCandidate env checklist repeats i) with
        | error errs => rw [hpm] at hres; exact absurd hres (by simp)
        | ok us =>
          rw [hpm] at hres
          simp only [Except.ok.injEq] at hres
          subst hres
          obtain ⟨hus, hall⟩ := parMap_ok_inv _ _ _ hpm
          have hsome : ∀ a ∈ (List.range resumes.length).map
              (fun i => reviewSingleCandidate env checklist repeats i),
              (okPart a).isSome := by
            intro a ha
            obtain ⟨i, hi, rfl⟩ := List.mem_map.mp ha
            obtain ⟨u, hu⟩ := hall i hi
            rw [hu]; rfl
          refine ⟨?_, ?_⟩
          · rw [hus, filterMap_length_of_isSome _ _ hsome, List.length_map,
              List.length_range]
          · intro m hm kq hkq
            rw [hus] at hm
            obtain ⟨a, ha, hpa⟩ := List.mem_filterMap.mp hm
            obtain ⟨i, _, rfl⟩ := List.mem_map.mp ha
            obtain ⟨rpr, _, hagg, hlen, hval⟩ :=
              reviewSingleCandidate_ok env checklist repeats i m (okPart_eq_some _ _ hpa)
            subst hagg
            rw [isSome_aggregate]
            have hne : rpr ≠ [] := by
              intro hnil
              rw [hnil] at hlen
              simp at hlen
              omega
            obtain ⟨r₀, hr₀⟩ := List.exists_mem_of_ne_nil rpr hne
            obtain ⟨resp, hmiss, hransw⟩ := hval r₀ hr₀
            refine ⟨r₀, hr₀, ?_⟩
            rw [hransw, isSome_alookup_answers]
            exact (missingKeys_eq_nil_iff checklist resp).mp hmiss kq hkq
  · intro c r e hrne hcne hc hr he
    obtain ⟨errs, herrs, _, _⟩ := parMap_error_spec (List.range repeats)
      (fun i => reviewCandidateOnce env checklist c i) r e (List.mem_range.mpr hr) he
    have hsc : reviewSingleCandidate env checklist repeats c = .error (.join errs) := by
      unfold reviewSingleCandidate ParMapRange
      rw [herrs]
    obtain ⟨errs₂, houter, _, _⟩ := parMap_error_spec (List.range resumes.length)
      (fun i => reviewSingleCandidate env checklist repeats i) c (.join errs)
      (List.mem_range.mpr hc) hsc
    refine ⟨.join errs₂, ?_⟩
    unfold ReviewCandidates
    rw [if_neg (fun h => hrne (List.length_eq_zero.mp h)),
      if_neg (fun h => hcne (List.length_eq_zero.mp h))]
    unfold ParMapRange
    rw [houter]

/-- Witness for C4: a 1-repeat, 1-document run with a valid oracle answer
succeeds with one complete mapping. -/
theorem reviewCandidates_no_partial_success_witness :
    ∃ results, ReviewCandidates envTrue [("k", "q")] ["resume a"] 1 = .ok results ∧
      results.length = 1 ∧
      ∀ m ∈ results, ∀ kq ∈ [("k", "q")], (alookup kq.1 m).isSome := by
  obtain ⟨hlen, hmem⟩ := (reviewCandidates_no_partial_success envTrue [("k", "q")]
    ["resume a"] 1 (le_refl 1)).1 _ rfl
  exact ⟨_, rfl, hlen, hmem⟩

/-! ## Claim C8: empty-input boundary -/

/-- C8: with zero documents the review returns an empty sequence, and with
zero checklist keys it returns one empty mapping per document; in both
cases no model call is made. -/
theorem reviewCandidates_empty_boundary (env : ReviewEnv)
    (checklist : List (String × String)) (resumes : List String) (numRepeats : Nat) :
    (resumes = [] → ReviewCandidates env checklist resumes numRepeats = .ok [] ∧
      ReviewCandidatesCalls env checklist resumes numRepeats = 0) ∧
    (checklist = [] → ReviewCandidates env checklist resumes numRepeats
        = .ok (List.replicate resumes.length []) ∧
      ReviewCandidatesCalls env checklist resumes numRepeats = 0) := by
  constructor
  · rintro rfl
    exact ⟨rfl, rfl⟩
  · rintro rfl
    by_cases h : resumes.length = 0
    · constructor
      · unfold ReviewCandidates
        rw [if_pos h, h]
        rfl
      · unfold ReviewCandidatesCalls
        rw [if_pos h]
    · constructor
      · unfold ReviewCandidates
        rw [if_neg h]
        simp
      · unfold ReviewCandidatesCalls
        rw [if_neg h]
        simp

/-- Witness for C8: concrete empty-document and empty-checklist runs. -/
theorem reviewCandidates_empty_boundary_witness :
    (ReviewCandidates envEmpty [("k", "q")] [] 7 = .ok [] ∧
      ReviewCandidatesCalls envEmpty [("k", "q")] [] 7 = 0) ∧
    (ReviewCandidates envEmpty [] ["cv"] 7 = .ok (List.replicate (["cv"].length) []) ∧
      ReviewCandidatesCalls envEmpty [] ["cv"] 7 = 0) :=
  ⟨(reviewCandidates_empty_boundary envEmpty [("k", "q")] [] 7).1 rfl,
   (reviewCandidates_empty_boundary envEmpty [] ["cv"] 7).2 rfl⟩

/-! ## Claim C9 (corrected): repeats = 0 is not rejected -/

/-- Counterexample to C9 as stated: invoking the review with `repeats = 0`
is not rejected — it succeeds (with an empty result mapping per document)
and never returns an error. -/
theorem reviewCandidates_zero_repeats_accepted_cex :
    ReviewCandidates envEmpty [("q1", "is the candidate good")] ["cv one"] 0 = .ok [[]] ∧
    ∀ e : GoErr,
      ReviewCandidates envEmpty [("q1", "is the candidate good")] ["cv one"] 0
        ≠ .error e := by
  refine ⟨rfl, fun e h => ?_⟩
  rw [show ReviewCandidates envEmpty [("q1", "is the candidate good")] ["cv one"] 0
      = .ok [[]] from rfl] at h
  exact Except.noConfusion h

/-- C9 (amended): no validation rejects `repeats = 0`; with a non-empty
document list and checklist, the review then succeeds, producing one empty
mapping per document (no probability for any checklist key) and making no
model call. -/
theorem reviewCandidates_zero_repeats_behavior (env : ReviewEnv)
    (checklist : List (String × String)) (resumes : List String)
    (hr : resumes ≠ []) (hc : checklist ≠ []) :
    ReviewCandidates env checklist resumes 0 = .ok (List.replicate resumes.length []) ∧
    ReviewCandidatesCalls env checklist resumes 0 = 0 := by
  have hrl : ¬ resumes.length = 0 := fun h => hr (List.length_eq_zero.mp h)
  have hcl : ¬ checklist.length = 0 := fun h => hc (List.length_eq_zero.mp h)
  constructor
  · unfold ReviewCandidates
    rw [if_neg hrl, if_neg hcl]
    rw [show ParMapRange resumes.length (fun i => reviewSingleCandidate env checklist 0 i)
        = .ok ((List.range resumes.length).map (fun _ => [])) from
      parMap_ok_of_forall _ _ (fun _ => []) (fun i _ => rfl)]
    rw [List.map_const', List.length_range]
  · unfold ReviewCandidatesCalls
    rw [if_neg hrl, if_neg hcl]
    simp

/-- Witness for C9: a concrete 2-document run with `repeats = 0`. -/
theorem reviewCandidates_zero_repeats_behavior_witness :
    ReviewCandidates envEmpty [("q1", "x")] ["cv1", "cv2"] 0
        = .ok (List.replicate (["cv1", "cv2"].length) []) ∧
    ReviewCandidatesCalls envEmpty [("q1", "x")] ["cv1", "cv2"] 0 = 0 :=
  reviewCandidates_zero_repeats_behavior envEmpty [("q1", "x")] ["cv1", "cv2"]
    (by simp) (by simp)

/-! ## Claim C10: validation checks presence only; output keys are the
union of the repeats' keys -/

/-- C10: the response validator only checks that every checklist key is
present (never that no extra key appears); consequently the key set of a
successful per-document result is the union of the key sets of all `R`
repeat judgments, and any answered key — also one absent from the
checklist — appears with probability (number of repeats answering it
`true`) / `R`. -/
theorem validation_presence_only_union_keys
    (env : ReviewEnv) (checklist : List (String × String)) (repeats cand : Nat)
    (js : Nat → List (String × Bool))
    (hok : ∀ r < repeats, reviewCandidateOnce env checklist cand r = .ok (js r))
    (hnd : ∀ r < repeats, ((js r).map Prod.fst).Nodup) :
    (∀ (chk : List (String × String)) (resp : CandidateReviewResponse),
      missingKeys chk resp = [] ↔ ∀ kq ∈ chk, (alookup kq.1 resp).isSome) ∧
    ∃ res, reviewSingleCandidate env checklist repeats cand = .ok res ∧
      (∀ k : String, (alookup k res).isSome ↔ ∃ r < repeats, (alookup k (js r)).isSome) ∧
      (∀ k : String, ∀ r₀ < repeats, (alookup k (js r₀)).isSome →
        alookup k res = some ⟨(((List.range repeats).countP
          (fun r => alookup k (js r) = some true) : ℚ)) / (repeats : ℚ)⟩) := by
  refine ⟨missingKeys_eq_nil_iff, ?_⟩
  have hpm : ParMapRange repeats (fun i => reviewCandidateOnce env checklist cand i)
      = .ok ((List.range repeats).map js) :=
    parMap_ok_of_forall _ _ js fun r hr => hok r (List.mem_range.mp hr)
  have hndm : ∀ r ∈ (List.range repeats).map js, (r.map Prod.fst).Nodup := by
    intro r hr
    obtain ⟨i, hi, rfl⟩ := List.mem_map.mp hr
    exact hnd i (List.mem_range.mp hi)
  refine ⟨aggregate repeats ((List.range repeats).map js), ?_, ?_, ?_⟩
  · unfold reviewSingleCandidate
    rw [hpm]
  · intro k
    rw [isSome_aggregate]
    constructor
    · rintro ⟨r, hrmem, hs⟩
      obtain ⟨i, hi, rfl⟩ := List.mem_map.mp hrmem
      exact ⟨i, List.mem_range.mp hi, hs⟩
    · rintro ⟨i, hi, hs⟩
      exact ⟨js i, List.mem_map_of_mem js (List.mem_range.mpr hi), hs⟩
  · intro k r₀ hr₀ hs₀
    rw [alookup_aggregate repeats _ hndm k]
    have hany : (((List.range repeats).map js).any fun r => (alookup k r).isSome) = true := by
      rw [List.any_eq_true]
      exact ⟨js r₀, List.mem_map_of_mem js (List.mem_range.mpr hr₀), hs₀⟩
    rw [if_pos hany, List.filterMap_map,
      count_true_filterMap (List.range repeats) ((fun r => alookup k r) ∘ js)]
    simp only [Function.comp]

/-- Witness for C10: the extra key `"extra"`, absent from the checklist
but answered by the first of two repeats, appears in the result with the
vote-share probability. -/
theorem validation_presence_only_union_keys_witness :
    ∃ res, reviewSingleCandidate envExtra [("k", "does the candidate fit")] 2 0 = .ok res ∧
      (alookup "extra" res).isSome ∧
      alookup "extra" res = some ⟨(((List.range 2).countP
        (fun r => alookup "extra" (jsExtra r) = some true) : ℚ)) / ((2 : Nat) : ℚ)⟩ := by
  obtain ⟨-, res, hres, hiff, hval⟩ := validation_presence_only_union_keys envExtra
    [("k", "does the candidate fit")] 2 0 jsExtra
    (by intro r hr; interval_cases r <;> rfl)
    (by decide)
  exact ⟨res, hres, (hiff "extra").mpr ⟨0, by norm_num, by decide⟩,
    hval "extra" 0 (by norm_num) (by decide)⟩

/-! ## Lemmas about the report ordering -/

/-- The lexicographic string comparison is asymmetric. -/
theorem charListLT_asymm (a b : List Char) (h : charListLT a b = true) :
    charListLT b a = false := by
  induction a generalizing b with
  | nil =>
    cases b with
    | nil => exact absurd h (by simp [charListLT])
    | cons y ys => rfl
  | cons x xs ih =>
    cases b with
    | nil => exact absurd h (by simp [charListLT])
    | cons y ys =>
      rw [charListLT] at h ⊢
      by_cases hxy : x < y
      · rw [if_pos hxy] at h
        rw [if_neg (lt_asymm hxy), if_pos hxy]
      · rw [if_neg hxy] at h
        by_cases hyx : y < x
        · rw [if_pos hyx] at h
          exact absurd h (by simp)
        · rw [if_neg hyx] at h
          rw [if_neg hyx, if_neg hxy]
          exact ih ys h

/-- Two lists neither of which is lexicographically below the other are
equal. -/
theorem charListLT_conn (a b : List Char) (h1 : charListLT a b = false)
    (h2 : charListLT b a = false) : a = b := by
  induction a generalizing b with
  | nil =>
    cases b with
    | nil => rfl
    | cons y ys => exact absurd h1 (by simp [charListLT])
  | cons x xs ih =>
    cases b with
    | nil => exact absurd h2 (by simp [charListLT])
    | cons y ys =>
      rw [charListLT] at h1 h2
      by_cases hxy : x < y
      · rw [if_pos hxy] at h1
        exact absurd h1 (by simp)
      · by_cases hyx : y < x
        · rw [if_pos hyx] at h2
          exact absurd h2 (by simp)
        · rw [if_neg hxy, if_neg hyx] at h1
          rw [if_neg hyx, if_neg hxy] at h2
          rw [le_antisymm (not_lt.mp hxy) (not_lt.mp hyx), ih ys h1 h2]

/-- The lexicographic string comparison is transitive. -/
theorem charListLT_trans (a b c : List Char) (h1 : charListLT a b = true)
    (h2 : charListLT b c = true) : charListLT a c = true := by
  induction a generalizing b c with
  | nil =>
    cases b with
    | nil => exact absurd h1 (by simp [charListLT])
    | cons y ys =>
      cases c with
      | nil => exact absurd h2 (by simp [charListLT])
      | cons z zs => rfl
  | cons x xs ih =>
    cases b with
    | nil => exact absurd h1 (by simp [charListLT])
    | cons y ys =>
      cases c with
      | nil => exact absurd h2 (by simp [charListLT])
      | cons z zs =>
        rw [charListLT] at h1 h2 ⊢
        by_cases hxy : x < y
        · rw [if_pos hxy] at h1
          by_cases hyz : y < z
          · rw [if_pos (hxy.trans hyz)]
          · by_cases hzy : z < y
            · rw [if_neg hyz, if_pos hzy] at h2
              exact absurd h2 (by simp)
            · rw [if_neg hyz, if_neg hzy] at h2
              rw [le_antisymm (not_lt.mp hzy) (not_lt.mp hyz)] at hxy
              rw [if_pos hxy]
        · by_cases hyx : y < x
          · rw [if_neg hxy, if_pos hyx] at h1
            exact absurd h1 (by simp)
          · rw [if_neg hxy, if_neg hyx] at h1
            have heq : y = x := le_antisymm (not_lt.mp hxy) (not_lt.mp hyx)
            rw [heq] at h2
            by_cases hxz : x < z
            · rw [if_pos hxz]
            · by_cases hzx : z < x
              · rw [if_neg hxz, if_pos hzx] at h2
                exact absurd h2 (by simp)
              · rw [if_neg hxz, if_neg hzx] at h2 ⊢
                exact ih ys zs h1 h2

/-- A boolean that is not `false` is `true`. -/
theorem bool_eq_true_of_not_eq_false {b : Bool} (h : ¬ b = false) : b = true := by
  cases b
  · exact absurd rfl h
  · rfl

/-- `reportLess` unfolded to its two-criteria meaning. -/
theorem reportLess_eq_true_iff (a b : CandidateReport) :
    reportLess a b = true ↔
      b.FinalScore < a.FinalScore ∨
        (a.FinalScore = b.FinalScore ∧ strLT a.FileName b.FileName = true) := by
  unfold reportLess
  by_cases h1 : a.FinalScore > b.FinalScore
  · simp [h1]
  · by_cases h2 : a.FinalScore < b.FinalScore
    · simp only [if_neg h1, if_pos h2]
      constructor
      · intro h; exact absurd h (by simp)
      · rintro (h | ⟨heq, _⟩)
        · exact absurd h h1
        · exact absurd (heq ▸ h2) (lt_irrefl _)
    · have heq : a.FinalScore = b.FinalScore := le_antisymm (not_lt.mp h1) (not_lt.mp h2)
      simp [if_neg h1, if_neg h2, heq]

/-- The `sort.Slice` comparison, negated and flipped, is exactly the
claimed row order. -/
theorem reportLE_iff (a b : CandidateReport) :
    (! reportLess b a) = true ↔ scoreDescNameAsc a b := by
  rw [Bool.not_eq_true', scoreDescNameAsc]
  constructor
  · intro h
    rcases lt_trichotomy b.FinalScore a.FinalScore with hlt | heq | hgt
    · exact Or.inl hlt
    · refine Or.inr ⟨heq, ?_⟩
      by_contra hname
      have : reportLess b a = true :=
        (reportLess_eq_true_iff b a).mpr
          (Or.inr ⟨heq, bool_eq_true_of_not_eq_false hname⟩)
      rw [h] at this
      exact absurd this (by simp)
    · have : reportLess b a = true := (reportLess_eq_true_iff b a).mpr (Or.inl hgt)
      rw [h] at this
      exact absurd this (by simp)
  · rintro (hlt | ⟨heq, hname⟩)
    · by_contra h
      rcases (reportLess_eq_true_iff b a).mp (bool_eq_true_of_not_eq_false h) with
        h2 | ⟨h2, _⟩
      · exact absurd (h2.trans hlt) (lt_irrefl _)
      · exact absurd (h2 ▸ hlt) (lt_irrefl _)
    · by_contra h
      rcases (reportLess_eq_true_iff b a).mp (bool_eq_true_of_not_eq_false h) with
        h2 | ⟨_, h2⟩
      · exact absurd (heq ▸ h2) (lt_irrefl _)
      · rw [hname] at h2
        exact absurd h2 (by simp)

/-- `reportLess` is asymmetric. -/
theorem reportLess_asymm (a b : CandidateReport) (h : reportLess a b = true) :
    reportLess b a = false := by
  cases hba : reportLess b a with
  | false => rfl
  | true =>
    exfalso
    rcases (reportLess_eq_true_iff a b).mp h with h1 | ⟨h1, h1n⟩ <;>
      rcases (reportLess_eq_true_iff b a).mp hba with h2 | ⟨h2, h2n⟩
    · exact absurd (h1.trans h2) (lt_irrefl _)
    · exact absurd (h2 ▸ h1) (lt_irrefl _)
    · exact absurd (h1 ▸ h2) (lt_irrefl _)
    · have := charListLT_asymm _ _ h1n
      unfold strLT at h2n
      rw [h2n] at this
      exact absurd this (by simp)

/-- Failing the lexicographic comparison is transitive. -/
theorem charListLT_false_trans (a b c : List Char) (h1 : charListLT b a = false)
    (h2 : charListLT c b = false) : charListLT c a = false := by
  cases hca : charListLT c a with
  | false => rfl
  | true =>
    exfalso
    by_cases hab : charListLT a b = true
    · have hcb := charListLT_trans c a b hca hab
      rw [h2] at hcb
      exact absurd hcb (by simp)
    · have hab2 : a = b :=
        charListLT_conn a b (by revert hab; cases charListLT a b <;> simp) h1
      rw [hab2] at hca
      rw [h2] at hca
      exact absurd hca (by simp)

/-- The claimed row order is transitive. -/
theorem scoreDescNameAsc_trans (a b c : CandidateReport)
    (h1 : scoreDescNameAsc a b) (h2 : scoreDescNameAsc b c) : scoreDescNameAsc a c := by
  rcases h1 with h1 | ⟨h1, h1n⟩ <;> rcases h2 with h2 | ⟨h2, h2n⟩
  · exact Or.inl (h2.trans h1)
  · exact Or.inl (h2 ▸ h1)
  · exact Or.inl (h1 ▸ h2)
  · exact Or.inr ⟨h2.trans h1, charListLT_false_trans _ _ _ h1n h2n⟩

/-- The claimed row order is total. -/
theorem scoreDescNameAsc_total (a b : CandidateReport) :
    scoreDescNameAsc a b ∨ scoreDescNameAsc b a := by
  rcases lt_trichotomy b.FinalScore a.FinalScore with h | h | h
  · exact Or.inl (Or.inl h)
  · cases hname : strLT b.FileName a.FileName with
    | false => exact Or.inl (Or.inr ⟨h, hname⟩)
    | true => exact Or.inr (Or.inr ⟨h.symm, charListLT_asymm _ _ hname⟩)
  · exact Or.inr (Or.inl h)

/-! ## Lemmas about the final score -/

/-- Guarded accumulation as a mapped sum. -/
theorem foldl_add_ite {α : Type} (l : List α) (p : α → Bool) (w : α → ℚ) (init : ℚ) :
    l.foldl (fun acc x => if p x then acc + w x else acc) init
      = init + (l.map (fun x => if p x then w x else 0)).sum := by
  induction l generalizing init with
  | nil => simp
  | cons a rest ih =>
    simp only [List.foldl_cons, List.map_cons, List.sum_cons]
    cases hpa : p a
    · simp only [hpa, Bool.false_eq_true, if_false, ih]
      ring
    · simp only [hpa, if_true, ih]
      ring

/-- The final-score loop of `runView`, as a sum over the result map. -/
theorem finalScore_eq_sum (sc : List (String × ConfigScoreChecklistItem))
    (result : List (String × CandidateQuestionResult)) :
    finalScore sc result = (result.map (fun kv =>
      if kv.2.IsTrue then ((alookup kv.1 sc).getD zeroItem).Weight else 0)).sum := by
  unfold finalScore
  rw [foldl_add_ite]
  ring

/-- Sums distribute over pointwise addition of the mapped function. -/
theorem sum_map_add_split {α : Type} (l : List α) (f g : α → ℚ) :
    (l.map (fun x => f x + g x)).sum = (l.map f).sum + (l.map g).sum := by
  induction l with
  | nil => simp
  | cons a rest ih =>
    simp only [List.map_cons, List.sum_cons, ih]
    ring

/-- A sum guarded on an absent key vanishes. -/
theorem sum_map_key_guard_zero (result : List (String × CandidateQuestionResult))
    (k₀ : String) (h : CandidateQuestionResult → ℚ) (hk : k₀ ∉ result.map Prod.fst) :
    (result.map (fun kv => if kv.1 = k₀ then h kv.2 else 0)).sum = 0 := by
  induction result with
  | nil => rfl
  | cons kv rest ih =>
    simp only [List.map_cons, List.mem_cons, not_or] at hk
    simp only [List.map_cons, List.sum_cons,
      if_neg (fun he : kv.1 = k₀ => hk.1 he.symm), ih hk.2]
    ring

/-- A sum guarded on one key collapses to that key's looked-up entry. -/
theorem sum_map_key_guard (result : List (String × CandidateQuestionResult))
    (k₀ : String) (h : CandidateQuestionResult → ℚ)
    (hnd : (result.map Prod.fst).Nodup) :
    (result.map (fun kv => if kv.1 = k₀ then h kv.2 else 0)).sum
      = match alookup k₀ result with
        | some c => h c
        | none => 0 := by
  induction result with
  | nil => rfl
  | cons kv rest ih =>
    obtain ⟨k₁, v⟩ := kv
    simp only [List.map_cons, List.nodup_cons] at hnd
    simp only [List.map_cons, List.sum_cons]
    by_cases hk : k₁ = k₀
    · subst hk
      rw [if_pos rfl, sum_map_key_guard_zero rest k₁ h hnd.1]
      simp [alookup]
    · rw [if_neg hk, ih hnd.2]
      simp [alookup, hk]

/-- The zero-value question result is not `IsTrue`. -/
theorem isTrue_zero_eq_false : (⟨0⟩ : CandidateQuestionResult).IsTrue = false := by
  simp only [CandidateQuestionResult.IsTrue]
  norm_num

/-- The source's final score equals the spec's: the sum of the weights of
the checklist keys whose `IsTrue()` holds for the document. -/
theorem finalScore_eq_spec (sc : List (String × ConfigScoreChecklistItem))
    (result : List (String × CandidateQuestionResult))
    (hndc : (sc.map Prod.fst).Nodup) (hndr : (result.map Prod.fst).Nodup) :
    finalScore sc result = specFinalScore sc result := by
  induction sc with
  | nil =>
    rw [finalScore_eq_sum]
    unfold specFinalScore
    simp [alookup, zeroItem]
  | cons kv sc' ih =>
    obtain ⟨k₀, it⟩ := kv
    simp only [List.map_cons, List.nodup_cons] at hndc
    have hnone : alookup k₀ sc' = none := alookup_eq_none_of_not_mem _ _ hndc.1
    rw [finalScore_eq_sum]
    have hsplit : (fun kv2 : String × CandidateQuestionResult =>
        if kv2.2.IsTrue then ((alookup kv2.1 ((k₀, it) :: sc')).getD zeroItem).Weight else 0)
      = (fun kv2 : String × CandidateQuestionResult =>
          (if kv2.1 = k₀ then (if kv2.2.IsTrue then it.Weight else 0) else 0)
          + (if kv2.2.IsTrue then ((alookup kv2.1 sc').getD zeroItem).Weight else 0)) := by
      funext kv2
      by_cases hk : kv2.1 = k₀
      · have h1 : alookup kv2.1 ((k₀, it) :: sc') = some it := by
          simp [alookup, hk.symm]
        rw [h1, if_pos hk, hk, hnone]
        cases kv2.2.IsTrue <;> simp [zeroItem]
      · have hne : ¬ k₀ = kv2.1 := fun he => hk he.symm
        have h1 : alookup kv2.1 ((k₀, it) :: sc') = alookup kv2.1 sc' := by
          simp [alookup, hne]
        rw [h1, if_neg hk]
        ring
    rw [hsplit, sum_map_add_split,
      sum_map_key_guard result k₀ (fun c => if c.IsTrue then it.Weight else 0) hndr,
      ← finalScore_eq_sum, ih hndc.2]
    unfold specFinalScore
    rw [List.filter_cons]
    cases halk : alookup k₀ result with
    | none =>
      simp only [halk, Option.getD_none, isTrue_zero_eq_false, Bool.false_eq_true,
        if_false]
      ring
    | some c =>
      simp only [halk, Option.getD_some]
      by_cases hc : c.IsTrue = true
      · rw [if_pos hc, if_pos hc, List.map_cons, List.sum_cons]
      · rw [if_neg hc, if_neg hc]
        ring

/-- The result map of report `i` has distinct keys whenever every review
result does. -/
theorem nodup_getD (results : List (List (String × CandidateQuestionResult)))
    (hndr : ∀ m ∈ results, (m.map Prod.fst).Nodup) (i : Nat) :
    ((results.getD i []).map Prod.fst).Nodup := by
  cases h : results[i]? with
  | none =>
    rw [List.getD_eq_getElem?_getD, h]
    simp
  | some m =>
    rw [List.getD_eq_getElem?_getD, h]
    exact hndr m (List.getElem?_mem h)

/-! ## Claim C7: the view report rows -/

/-- C7: the report rows of a view are sorted by final score descending
with ties broken by file name ascending, they are exactly the per-document
reports (as a permutation), and each row's final score is the sum of the
weights of the checklist keys whose `IsTrue()` holds for that document. -/
theorem runView_reports_sorted_and_scored
    (sc : List (String × ConfigScoreChecklistItem)) (pdfNames : List String)
    (results : List (List (String × CandidateQuestionResult)))
    (hndc : (sc.map Prod.fst).Nodup)
    (hndr : ∀ m ∈ results, (m.map Prod.fst).Nodup) :
    (runViewReports sc pdfNames results).Pairwise scoreDescNameAsc ∧
    (runViewReports sc pdfNames results).Perm (mkReports sc pdfNames results) ∧
    ∀ rep ∈ runViewReports sc pdfNames results,
      rep.FinalScore = specFinalScore sc rep.Checklist := by
  have hperm : (runViewReports sc pdfNames results).Perm
      (mkReports sc pdfNames results) := List.mergeSort_perm _ _
  refine ⟨?_, hperm, ?_⟩
  · have hpw := List.sorted_mergeSort
      (fun a b c hab hbc => by
        rw [reportLE_iff] at hab hbc ⊢
        exact scoreDescNameAsc_trans a b c hab hbc)
      (fun a b => by
        rcases scoreDescNameAsc_total a b with h | h
        · rw [Bool.or_eq_true]
          exact Or.inl ((reportLE_iff a b).mpr h)
        · rw [Bool.or_eq_true]
          exact Or.inr ((reportLE_iff b a).mpr h))
      (mkReports sc pdfNames results)
    exact hpw.imp fun hab => (reportLE_iff _ _).mp hab
  · intro rep hrep
    have hrep2 : rep ∈ mkReports sc pdfNames results := hperm.mem_iff.mp hrep
    unfold mkReports at hrep2
    obtain ⟨i, hi, rfl⟩ := List.mem_map.mp hrep2
    exact finalScore_eq_spec sc (results.getD i []) hndc (nodup_getD results hndr i)

/-- Witness for C7: two documents, one scoring 2 and one scoring 0, with
the weights taken from a one-key score checklist. -/
theorem runView_reports_sorted_and_scored_witness :
    (runViewReports [("k", ⟨"q", 2, false⟩)] ["pdf/b.pdf", "pdf/a.pdf"]
        [[("k", ⟨1⟩)], [("k", ⟨0⟩)]]).Pairwise scoreDescNameAsc ∧
    (runViewReports [("k", ⟨"q", 2, false⟩)] ["pdf/b.pdf", "pdf/a.pdf"]
        [[("k", ⟨1⟩)], [("k", ⟨0⟩)]]).Perm
      (mkReports [("k", ⟨"q", 2, false⟩)] ["pdf/b.pdf", "pdf/a.pdf"]
        [[("k", ⟨1⟩)], [("k", ⟨0⟩)]]) ∧
    ∀ rep ∈ runViewReports [("k", ⟨"q", 2, false⟩)] ["pdf/b.pdf", "pdf/a.pdf"]
        [[("k", ⟨1⟩)], [("k", ⟨0⟩)]],
      rep.FinalScore = specFinalScore [("k", ⟨"q", 2, false⟩)] rep.Checklist :=
  runView_reports_sorted_and_scored [("k", ⟨"q", 2, false⟩)]
    ["pdf/b.pdf", "pdf/a.pdf"] [[("k", ⟨1⟩)], [("k", ⟨0⟩)]]
    (by decide) (by decide)

end Cvscan
